import Mathlib

/-!
Verification of the BAMI chain-and-reconciliation engine specification.

The repository's visible material contains the project documentation, a CI
workflow, simulation harnesses and an orchestration shell script; the core
engine (Record, Chain Store, Fork Detector, Gossip Reconciler, Community
Registry) is described by the specification.  The engine components below are
therefore modelled from the spec; the `multi_sim.sh` orchestration script is
modelled from its source.
-/

namespace Bami

/-- Modelled from the spec: a Record is the immutable signed unit of chain
data, with `owner_key`, `sequence_number` (starting at 1), `prev_hash`
(sentinel 0 for sequence 1), an opaque payload, and a signature over the
other fields.  Keys, hashes and payloads are represented as naturals. -/
structure Record where
  owner : Nat
  seq : Nat
  prevHash : Nat
  payload : Nat
  sig : Nat
deriving DecidableEq

/-- Modelled from the spec: a Record's own hash is deterministic over its
fields.  We use the injective Cantor pairing; the `+ 1` keeps every hash
distinct from the sentinel `prev_hash` 0 of a first record. -/
def hashR (r : Record) : Nat :=
  Nat.pair (Nat.pair r.owner r.seq) (Nat.pair r.prevHash r.payload) + 1

/-- Modelled from the spec: the signature an owner produces over
(`sequence_number`, `prev_hash`, `payload_hash`), attributable to the owner. -/
def signFn (owner seq prevHash payload : Nat) : Nat :=
  Nat.pair (Nat.pair owner seq) (Nat.pair prevHash payload) + 2

/-- Modelled from the spec: signature verification against `owner_key`. -/
def validSig (r : Record) : Bool :=
  r.sig == signFn r.owner r.seq r.prevHash r.payload

/-- Helper producing a correctly signed record. -/
def mkRec (owner seq prevHash payload : Nat) : Record :=
  ⟨owner, seq, prevHash, payload, signFn owner seq prevHash payload⟩

/-- Modelled from the spec: a Chain Store is `LINEAR` while no fork has been
observed and `DAG` once at least one fork has been observed. -/
inductive Mode
  | LINEAR
  | DAG
deriving DecidableEq

/-- Modelled from the spec: the result of `Append`.  `SequenceGap` is not an
error to the caller (the record is buffered) and `LinkageMismatch` triggers
fork handling with both records retained. -/
inductive AppendResult
  | Ok
  | InvalidSignature
  | SequenceGap
  | LinkageMismatch
deriving DecidableEq

/-- Modelled from the spec: the per-peer Chain Store.  `recs` is the backing
mapping from positions to the records seen there (flattened to a list,
looked up by `sequence_number`), `pending` buffers gap-filler records,
`frontier` is the highest contiguous position, and `forkEvents` counts the
synchronous `OnForkDetected` invocations (one per transition to DAG). -/
structure ChainStore where
  recs : List Record
  pending : List Record
  mode : Mode
  frontier : Nat
  forkEvents : Nat
deriving DecidableEq

/-- Modelled from the spec: `EnsureChainStore` creates an empty LINEAR store. -/
def freshStore : ChainStore := ⟨[], [], .LINEAR, 0, 0⟩

/-- Accepted records stored at a given position. -/
def getRecs (s : ChainStore) (n : Nat) : List Record :=
  s.recs.filter (fun r => r.seq == n)

/-- Buffered gap-filler records at a given position. -/
def pendingAt (s : ChainStore) (n : Nat) : List Record :=
  s.pending.filter (fun r => r.seq == n)

/-- Modelled from the spec: `Get(sequence_number)` returns the accepted
record(s) at that position (one in LINEAR mode, possibly many in DAG). -/
def Get (s : ChainStore) (n : Nat) : List Record := getRecs s n

/-- Modelled from the spec: linkage check — `prev_hash` must match the hash
of the record currently at `sequence_number - 1` (sentinel 0 for seq 1). -/
def linkOk (s : ChainStore) (r : Record) : Bool :=
  if r.seq = 1 then r.prevHash == 0
  else (getRecs s (r.seq - 1)).any (fun p => hashR p == r.prevHash)

/-- Modelled from the spec: after the frontier advances, buffered gap-filler
records that now complete the gap with matching linkage are linearized
(first-seen candidate is canonical); this is not a fork.  Fuel-bounded by
the number of pending records. -/
def promote : Nat → ChainStore → ChainStore
  | 0, s => s
  | fuel + 1, s =>
    match pendingAt s (s.frontier + 1) with
    | [] => s
    | r :: _ =>
      if linkOk s r = true then
        promote fuel
          { s with recs := s.recs ++ [r],
                   pending := s.pending.erase r,
                   frontier := s.frontier + 1 }
      else s

/-- Modelled from the spec: `Append(record)`.  Invalid signatures are hard
rejections; a duplicate of an already stored record is a no-op; in DAG mode
the frontier is frozen and positions are tracked as forked sets; in LINEAR
mode a record at an already-linearized position or with mismatched linkage
at the next position flips the store to DAG while retaining both competing
records (`LinkageMismatch`, the fork signal), a record exactly at
`frontier + 1` with matching linkage is accepted and may promote buffered
gap fillers, and a record beyond `frontier + 1` is buffered
(`SequenceGap`, not an error to the caller). -/
def Append (r : Record) (s : ChainStore) : AppendResult × ChainStore :=
  if validSig r = false then (.InvalidSignature, s)
  else if r.seq = 0 then (.InvalidSignature, s)
  else if r ∈ s.recs then (.Ok, s)
  else if s.mode = Mode.DAG then (.Ok, { s with recs := s.recs ++ [r] })
  else if r.seq ≤ s.frontier then
    (.LinkageMismatch,
      { s with recs := s.recs ++ [r], mode := .DAG,
               forkEvents := s.forkEvents + 1 })
  else if r.seq = s.frontier + 1 then
    if linkOk s r = true then
      (.Ok, promote s.pending.length
        { s with recs := s.recs ++ [r], frontier := s.frontier + 1 })
    else
      (.LinkageMismatch,
        { s with recs := s.recs ++ [r], mode := .DAG,
                 forkEvents := s.forkEvents + 1 })
  else
    (.SequenceGap, { s with pending := s.pending ++ [r] })

/-- State after an append, discarding the result code. -/
def appendTo (s : ChainStore) (r : Record) : ChainStore := (Append r s).2

/-- Fold a list of records through `Append` in order. -/
def applyAll (rs : List Record) (s : ChainStore) : ChainStore :=
  rs.foldl appendTo s

/-- Concrete fork scenario: owner 5's genuine first record. -/
def rOne : Record := mkRec 5 1 0 100

/-- Concrete fork scenario: record X, correctly linked at position 2. -/
def rX : Record := mkRec 5 2 (hashR rOne) 200

/-- Concrete fork scenario: record Y, also claiming position 2 but with a
different `prev_hash`, correctly signed by owner 5. -/
def rY : Record := mkRec 5 2 (hashR rOne + 1) 300

/-- Store after owner 5's records 1 and X were accepted. -/
def storeLin2 : ChainStore := applyAll [rOne, rX] freshStore

/-- Concrete gap scenario: owner 5's genuine third record, linked to X. -/
def rThree : Record := mkRec 5 3 (hashR rX) 333

/-- Concrete gap scenario: owner 5's genuine fourth record, linked to the
third; it arrives before the third and is buffered as a gap filler. -/
def rFour : Record := mkRec 5 4 (hashR rThree) 444

/-- Store holding records 1 and X with record 4 buffered as a gap filler. -/
def storeGap : ChainStore := (Append rFour storeLin2).2

/-- Modelled from the spec: `FrontierSummary()` returns the frontier plus,
for DAG mode, the set of forked positions (positions holding more than one
competing record); used to build gossip offers. -/
structure Summary where
  frontier : Nat
  forked : List Nat
deriving DecidableEq

/-- Summary of a chain store: frontier and forked positions. -/
def FrontierSummary (s : ChainStore) : Summary :=
  ⟨s.frontier,
    ((s.recs.map (fun r => r.seq)).dedup).filter
      (fun n => decide (2 ≤ (getRecs s n).length))⟩

/-- Modelled from the spec: the positions up to the remote frontier for
which this store holds no record, accepted or buffered — the sequence
numbers this store lacks relative to the peer. -/
def localMissing (s : ChainStore) (sum : Summary) : List Nat :=
  (List.range' (s.frontier + 1) (sum.frontier - s.frontier)).filter
    (fun n => (getRecs s n).isEmpty && (pendingAt s n).isEmpty)

/-- Modelled from the spec: the positions beyond the remote frontier that
this store already covers — the sequence numbers the peer lacks relative to
this store. -/
def remoteMissing (s : ChainStore) (sum : Summary) : List Nat :=
  List.range' (sum.frontier + 1) (s.frontier - sum.frontier)

/-- Extend a contiguous-range accumulator by one ascending position. -/
def addPos (acc : List (Nat × Nat)) (n : Nat) : List (Nat × Nat) :=
  match acc with
  | [] => [(n, n)]
  | (a, b) :: rest => if n = b + 1 then (a, n) :: rest else (n, n) :: (a, b) :: rest

/-- Collect an ascending position list into maximal contiguous ranges. -/
def groupRanges (ns : List Nat) : List (Nat × Nat) :=
  (ns.foldl addPos []).reverse

/-- Modelled from the spec: `MissingRanges(remote_summary)` — the ordered
sequence-number ranges this store lacks relative to the peer and,
symmetrically, the ranges the peer lacks relative to this store. -/
def MissingRanges (s : ChainStore) (sum : Summary) :
    List (Nat × Nat) × List (Nat × Nat) :=
  (groupRanges (localMissing s sum), groupRanges (remoteMissing s sum))

/-- Canonical fully linked chain of an owner over a payload choice: the
record at each sequence number, hash-linked to its predecessor. -/
def chainRec (ow : Nat) (pl : Nat → Nat) : Nat → Record
  | 0 => mkRec ow 0 0 (pl 0)
  | n + 1 =>
    mkRec ow (n + 1) (if n = 0 then 0 else hashR (chainRec ow pl n)) (pl (n + 1))

/-- The hash a record at position `k + 1` of the canonical chain must carry
as `prev_hash` (sentinel 0 below position 1). -/
def prevH (ow : Nat) (pl : Nat → Nat) (k : Nat) : Nat :=
  if k = 0 then 0 else hashR (chainRec ow pl k)

/-- The canonical chain records at positions 1 through `n`. -/
def chainList (ow : Nat) (pl : Nat → Nat) (n : Nat) : List Record :=
  (List.range' 1 n).map (chainRec ow pl)

/-- Store of a peer that appended the canonical chain up to position `k`. -/
def storeUpTo (ow : Nat) (pl : Nat → Nat) (k : Nat) : ChainStore :=
  applyAll (chainList ow pl k) freshStore

/-- Modelled from the spec: the Community Registry maps a community key and
a member key to that member's chain store and tracks the per-community set
of banned peers; absent entries behave as fresh stores (idempotent
`EnsureChainStore`). -/
structure Registry where
  stores : Nat → Nat → ChainStore
  banned : Nat → Nat → Bool

/-- Registry of a process that has just joined: every store fresh, nobody
banned. -/
def initRegistry : Registry := ⟨fun _ _ => freshStore, fun _ _ => false⟩

/-- Modelled from the spec: submitting a record routes it to the owner's
chain store within the community via `Append`; the Fork Detector is invoked
synchronously on the store's transition to DAG mode and emits the ban of
that owner within that community only. -/
def submitRecord (reg : Registry) (c : Nat) (r : Record) :
    AppendResult × Registry :=
  if (reg.stores c r.owner).mode = Mode.LINEAR ∧
      (Append r (reg.stores c r.owner)).2.mode = Mode.DAG then
    ((Append r (reg.stores c r.owner)).1,
      { stores := fun c2 p2 =>
          if c2 = c ∧ p2 = r.owner then (Append r (reg.stores c r.owner)).2
          else reg.stores c2 p2,
        banned := fun c2 p2 =>
          if c2 = c ∧ p2 = r.owner then true else reg.banned c2 p2 })
  else
    ((Append r (reg.stores c r.owner)).1,
      { stores := fun c2 p2 =>
          if c2 = c ∧ p2 = r.owner then (Append r (reg.stores c r.owner)).2
          else reg.stores c2 p2,
        banned := reg.banned })

/-- Modelled from the spec: the gossip reconciler feeds every received
record through the originating owner's chain store `Append`, identically to
locally authored records; the sending peer plays no role in validation. -/
def gossipReceiveBatch (reg : Registry) (c : Nat) (_snd : Nat)
    (rs : List Record) : Registry :=
  rs.foldl (fun g r => (submitRecord g c r).2) reg

/-- Modelled from the spec: registry-level operations — a record submission
(local or imported), and the transient gossip failures. -/
inductive RegOp
  | submit (c : Nat) (r : Record)
  | gossipTimeout (c p : Nat)
  | summaryReject (c p : Nat)

/-- Modelled from the spec: registry transition function; a round that
times out or a peer that rejects the summary format is a transient failure
with no state change. -/
def regStep (reg : Registry) (op : RegOp) : Registry :=
  match op with
  | .submit c r => (submitRecord reg c r).2
  | .gossipTimeout _ _ => reg
  | .summaryReject _ _ => reg

/-- Registry state reached from the initial registry by a list of
operations. -/
def runOps (ops : List RegOp) : Registry := ops.foldl regStep initRegistry

/-- Ban soundness: a banned peer's own store has been demoted to DAG. -/
def BanInv (reg : Registry) : Prop :=
  ∀ c p, reg.banned c p = true → (reg.stores c p).mode = Mode.DAG

/-- Modelled from the spec: abstract push-pull gossip rounds.  At round
`t` the scheduled pair of peers, when neither is banned, exchanges
summaries and missing records, so both end the round holding the union of
their record sets; a banned peer neither initiates nor answers, and every
other peer is untouched that round. -/
def netState (bannedP : Nat → Bool) (sched : Nat → Nat × Nat)
    (init : Nat → List Record) : Nat → Nat → List Record
  | 0 => init
  | t + 1 => fun p =>
    if bannedP (sched t).1 || bannedP (sched t).2 then
      netState bannedP sched init t p
    else if p = (sched t).1 ∨ p = (sched t).2 then
      netState bannedP sched init t (sched t).1 ++
        netState bannedP sched init t (sched t).2
    else netState bannedP sched init t p

/-- Modelled from the spec: bounded message loss retried over successive
rounds — every topology edge is scheduled again at or after any given
round. -/
def FairSched (topo : List (Nat × Nat)) (sched : Nat → Nat × Nat) : Prop :=
  ∀ e ∈ topo, ∀ t, ∃ t2, t ≤ t2 ∧ sched t2 = e

/-- Connectivity through non-banned peers: the endpoint is joined to `p`
by topology edges whose nodes are all non-banned. -/
inductive ReachNB (topo : List (Nat × Nat)) (bannedP : Nat → Bool)
    (p : Nat) : Nat → Prop
  | refl : bannedP p = false → ReachNB topo bannedP p p
  | step (q q2 : Nat) : ReachNB topo bannedP p q → (q, q2) ∈ topo →
      bannedP q2 = false → ReachNB topo bannedP p q2

/-- State of an execution of `multi_sim.sh`: the loop counter (the next
input to launch), the inputs already launched in order, the background
runs of `basic_simulation.py` still running (identified by their input),
and whether the final message has been printed. -/
structure ShState where
  nextInput : Nat
  launched : List Nat
  running : List Nat
  printed : Bool
deriving DecidableEq

/-- Initial state of `multi_sim.sh`: loop counter at 1, nothing launched. -/
def shInit : ShState := ⟨1, [], [], false⟩

/-- Transition relation of `multi_sim.sh`: the loop body launches
`basic_simulation.py "$input"` in the background for inputs 1 to 10;
background processes terminate in any order; `wait` blocks the final
`echo "All processes finished."` until no background process remains. -/
inductive ShStep : ShState → ShState → Prop
  | launch (s : ShState) : s.nextInput ≤ 10 →
      ShStep s ⟨s.nextInput + 1, s.launched ++ [s.nextInput],
        s.running ++ [s.nextInput], s.printed⟩
  | finish (s : ShState) (i : Nat) : i ∈ s.running →
      ShStep s ⟨s.nextInput, s.launched, s.running.erase i, s.printed⟩
  | printDone (s : ShState) : s.nextInput = 11 → s.running = [] →
      ShStep s ⟨s.nextInput, s.launched, s.running, true⟩

/-- Reachability from the script's initial state. -/
def ShReach (s : ShState) : Prop := Relation.ReflTransGen ShStep shInit s

/-- Inductive invariant of `multi_sim.sh` executions. -/
def ShInv (s : ShState) : Prop :=
  1 ≤ s.nextInput ∧ s.nextInput ≤ 11 ∧
  s.launched = List.range' 1 (s.nextInput - 1) ∧
  (∀ i ∈ s.running, i ∈ s.launched) ∧
  (s.printed = true → s.nextInput = 11 ∧ s.running = [])

/-- Final state of a complete `multi_sim.sh` execution. -/
def shFinal : ShState := ⟨11, [1, 2, 3, 4, 5, 6, 7, 8, 9, 10], [], true⟩

/-- Invariant of a LINEAR store that holds one fully linked chain up to
position `n`, whose record at position `n` hashes to `h` (with `h = 0` the
sentinel when the chain is still empty). -/
def LinInv (s : ChainStore) (n h : Nat) : Prop :=
  s.mode = Mode.LINEAR ∧ s.frontier = n ∧ s.pending = [] ∧ s.forkEvents = 0 ∧
  (∀ x ∈ s.recs, 1 ≤ x.seq ∧ x.seq ≤ n) ∧
  (n = 0 → h = 0) ∧
  (1 ≤ n → ∃ p ∈ getRecs s n, hashR p = h)

/-- A valid record sequence: correctly signed records with consecutive
sequence numbers `n+1, n+2, ...` whose first `prev_hash` is `h` and whose
later `prev_hash` fields each match the hash of the preceding record. -/
inductive Chained : Nat → Nat → List Record → Prop
  | nil (h n : Nat) : Chained h n []
  | cons (h n : Nat) (r : Record) (rest : List Record) :
      validSig r = true → r.seq = n + 1 → r.prevHash = h →
      Chained (hashR r) (n + 1) rest → Chained h n (r :: rest)

/-- C8: owner 5 signs two different records X and Y both claiming sequence 2
with different `prev_hash`.  A store that first accepts X at position 2 and
then receives Y ends in DAG mode with both X and Y retrievable at position
2, and the fork callback fired exactly once over the whole sequence. -/
theorem c8_fork_scenario :
    (applyAll [rOne, rX, rY] freshStore).mode = Mode.DAG ∧
    rX ∈ Get (applyAll [rOne, rX, rY] freshStore) 2 ∧
    rY ∈ Get (applyAll [rOne, rX, rY] freshStore) 2 ∧
    (applyAll [rOne, rX, rY] freshStore).forkEvents = 1 ∧
    (applyAll [rOne, rX] freshStore).forkEvents = 0 ∧
    (applyAll [rOne] freshStore).forkEvents = 0 := by
  decide

theorem lin_step (s : ChainStore) (n h : Nat) (r : Record)
    (hs : LinInv s n h) (hv : validSig r = true) (hseq : r.seq = n + 1)
    (hprev : r.prevHash = h) :
    Append r s = (AppendResult.Ok,
      { s with recs := s.recs ++ [r], frontier := n + 1 }) ∧
    LinInv { s with recs := s.recs ++ [r], frontier := n + 1 } (n + 1)
      (hashR r) := by
  obtain ⟨hmode, hfront, hpend, hfe, hbound, hzero, hlast⟩ := hs
  have hnotmem : r ∉ s.recs := fun hm => by
    have := (hbound r hm).2; omega
  have hlink : linkOk s r = true := by
    rcases Nat.eq_zero_or_pos n with hn | hn
    · subst hn
      have h0 := hzero rfl
      rw [linkOk, if_pos (by omega : r.seq = 1)]
      simp [hprev, h0]
    · rw [linkOk, if_neg (by omega : ¬ r.seq = 1)]
      obtain ⟨p, hp, hph⟩ := hlast hn
      rw [List.any_eq_true]
      refine ⟨p, ?_, ?_⟩
      · rw [hseq]
        simpa using hp
      · simp [hph, hprev]
  have heq : Append r s = (AppendResult.Ok,
      { s with recs := s.recs ++ [r], frontier := n + 1 }) := by
    rw [Append, if_neg (by simp [hv]), if_neg (by omega : ¬ r.seq = 0),
        if_neg hnotmem, if_neg (by simp [hmode]),
        if_neg (by rw [hseq, hfront]; omega),
        if_pos (by rw [hseq, hfront]), if_pos hlink, hpend, hfront]
    rfl
  refine ⟨heq, hmode, rfl, hpend, hfe, ?_, by omega, ?_⟩
  · intro x hx
    rcases List.mem_append.mp hx with hx | hx
    · exact ⟨(hbound x hx).1, Nat.le_succ_of_le (hbound x hx).2⟩
    · have hxr : x = r := by simpa using hx
      subst hxr
      omega
  · intro _
    refine ⟨r, ?_, rfl⟩
    rw [getRecs, List.mem_filter]
    exact ⟨List.mem_append_right _ (List.mem_singleton.mpr rfl),
      by simp [hseq]⟩

theorem chain_apply (rs : List Record) :
    ∀ h n : Nat, Chained h n rs → ∀ s : ChainStore, LinInv s n h →
      ∃ h2 : Nat, LinInv (applyAll rs s) (n + rs.length) h2 ∧
        (applyAll rs s).recs = s.recs ++ rs := by
  induction rs with
  | nil =>
    intro h n _ s hs
    exact ⟨h, by simpa [applyAll] using hs, by simp [applyAll]⟩
  | cons r rest ih =>
    intro h n hc s hs
    cases hc with
    | cons _ _ _ _ hv hseq hprev hrest =>
      obtain ⟨heq, hinv⟩ := lin_step s n h r hs hv hseq hprev
      have happ : applyAll (r :: rest) s =
          applyAll rest { s with recs := s.recs ++ [r], frontier := n + 1 } := by
        simp [applyAll, appendTo, heq]
      obtain ⟨h2, hinv2, hrecs⟩ := ih (hashR r) (n + 1) hrest _ hinv
      have hl : n + (r :: rest).length = n + 1 + rest.length := by
        simp
        omega
      refine ⟨h2, ?_, ?_⟩
      · rw [happ, hl]
        exact hinv2
      · rw [happ, hrecs]
        simp

theorem chained_take (rs : List Record) :
    ∀ h n m, Chained h n rs → Chained h n (rs.take m) := by
  induction rs with
  | nil =>
    intro h n m _
    simpa using Chained.nil h n
  | cons r rest ih =>
    intro h n m hc
    cases m with
    | zero => exact Chained.nil h n
    | succ m =>
      cases hc with
      | cons _ _ _ _ hv hseq hprev hrest =>
        exact Chained.cons h n r (rest.take m) hv hseq hprev
          (ih (hashR r) (n + 1) m hrest)

theorem chained_seq_at (rs : List Record) :
    ∀ h n, Chained h n rs → ∀ k, ∀ hk : k < rs.length,
      (rs.get ⟨k, hk⟩).seq = n + k + 1 := by
  induction rs with
  | nil =>
    intro h n _ k hk
    simp at hk
  | cons r rest ih =>
    intro h n hc k hk
    cases hc with
    | cons _ _ _ _ hv hseq hprev hrest =>
      cases k with
      | zero => simpa using hseq
      | succ k =>
        have hk2 : k < rest.length := by simpa using hk
        have h2 := ih (hashR r) (n + 1) hrest k hk2
        exact h2.trans (by omega)

theorem lin_fresh : LinInv freshStore 0 0 := by
  refine ⟨rfl, rfl, rfl, rfl, ?_, fun _ => rfl, ?_⟩
  · intro x hx
    simp [freshStore] at hx
  · intro h1
    exact absurd h1 (by decide)

/-- C1: for every sequence of valid, correctly signed and correctly linked
records appended in order (sequence numbers 1, 2, 3, ...) to a fresh
(empty, LINEAR) chain store, after each append the store's frontier equals
the sequence number of the last record appended and its mode remains
LINEAR. -/
theorem c1_linear_appends (rs : List Record) (hc : Chained 0 0 rs)
    (k : Nat) (hk : k < rs.length) :
    (applyAll (rs.take (k + 1)) freshStore).mode = Mode.LINEAR ∧
    (applyAll (rs.take (k + 1)) freshStore).frontier = (rs.get ⟨k, hk⟩).seq := by
  have hct := chained_take rs 0 0 (k + 1) hc
  obtain ⟨h2, hinv, _⟩ := chain_apply (rs.take (k + 1)) 0 0 hct freshStore lin_fresh
  obtain ⟨hmode, hfront, _⟩ := hinv
  have hlen : (rs.take (k + 1)).length = k + 1 := by
    simp [List.length_take]
    omega
  have hseq := chained_seq_at rs 0 0 hc k hk
  refine ⟨hmode, ?_⟩
  rw [hfront, hlen, hseq]
  omega

/-- Witness for C1 at the concrete two-record chain of owner 5. -/
theorem c1_linear_appends_witness :
    (applyAll ([rOne, rX].take 2) freshStore).mode = Mode.LINEAR ∧
    (applyAll ([rOne, rX].take 2) freshStore).frontier =
      ([rOne, rX].get ⟨1, by decide⟩).seq := by
  refine c1_linear_appends [rOne, rX] ?_ 1 (by decide)
  refine Chained.cons 0 0 rOne [rX] (by decide) (by decide) (by decide) ?_
  exact Chained.cons (hashR rOne) 1 rX [] (by decide) (by decide) (by decide)
    (Chained.nil _ _)

theorem append_dag (r : Record) (s : ChainStore) (hd : s.mode = Mode.DAG) :
    (Append r s).2.mode = Mode.DAG := by
  rw [Append]
  split_ifs <;> simp_all

theorem applyAll_dag (l : List Record) :
    ∀ s : ChainStore, s.mode = Mode.DAG → (applyAll l s).mode = Mode.DAG := by
  induction l with
  | nil => intro s hd; exact hd
  | cons r rest ih =>
    intro s hd
    exact ih (appendTo s r) (append_dag r s hd)

/-- C4: the mode of a chain store only ever transitions from LINEAR to DAG,
never back: once a store is in DAG mode, every state reached by any further
sequence of appends (every prefix of any further operation sequence) is
still in DAG mode. -/
theorem c4_dag_absorbing (rs : List Record) (s : ChainStore)
    (hd : s.mode = Mode.DAG) (k : Nat) :
    (applyAll (rs.take k) s).mode = Mode.DAG :=
  applyAll_dag (rs.take k) s hd

/-- Witness for C4 at the concrete forked store of owner 5. -/
theorem c4_dag_absorbing_witness :
    (applyAll ([rThree].take 1) (applyAll [rOne, rX, rY] freshStore)).mode =
      Mode.DAG :=
  c4_dag_absorbing [rThree] (applyAll [rOne, rX, rY] freshStore) (by decide) 1

/-- C2: a LINEAR store holding a record at position `n - 1`, receiving a
validly signed record at position `n` whose `prev_hash` matches none of the
stored predecessors, does not reject it: the append reports
`LinkageMismatch`, the mode flips to DAG, and both the new record and every
record previously stored at position `n` are retrievable via `Get n`. -/
theorem c2_linkage_mismatch (s : ChainStore) (r : Record) (n : Nat)
    (p : Record) (hmode : s.mode = Mode.LINEAR)
    (hbound : ∀ x ∈ s.recs, 1 ≤ x.seq ∧ x.seq ≤ s.frontier)
    (hn : 2 ≤ n) (hp : p ∈ Get s (n - 1))
    (hv : validSig r = true) (hseq : r.seq = n) (hnew : r ∉ s.recs)
    (hmis : ∀ q ∈ Get s (n - 1), r.prevHash ≠ hashR q) :
    (Append r s).1 = AppendResult.LinkageMismatch ∧
    (Append r s).2.mode = Mode.DAG ∧
    r ∈ Get (Append r s).2 n ∧
    (∀ x ∈ Get s n, x ∈ Get (Append r s).2 n) := by
  have hps : p ∈ s.recs ∧ p.seq = n - 1 := by
    simpa [Get, getRecs, List.mem_filter] using hp
  have hfr : n ≤ s.frontier + 1 := by
    have h2 := (hbound p hps.1).2
    omega
  have happ : Append r s = (AppendResult.LinkageMismatch,
      { s with recs := s.recs ++ [r], mode := Mode.DAG,
               forkEvents := s.forkEvents + 1 }) := by
    rw [Append, if_neg (by simp [hv]), if_neg (by omega : ¬ r.seq = 0),
        if_neg hnew, if_neg (by simp [hmode])]
    by_cases hc : r.seq ≤ s.frontier
    · rw [if_pos hc]
    · have hlf : ¬ linkOk s r = true := by
        rw [linkOk, if_neg (by omega : ¬ r.seq = 1)]
        intro hany
        rw [List.any_eq_true] at hany
        obtain ⟨q, hq, hqe⟩ := hany
        have hqh : hashR q = r.prevHash := by simpa using hqe
        have hq2 : q ∈ Get s (n - 1) := by
          have : r.seq - 1 = n - 1 := by omega
          rw [Get]
          rw [this] at hq
          exact hq
        exact hmis q hq2 hqh.symm
      rw [if_neg hc, if_pos (by omega : r.seq = s.frontier + 1), if_neg hlf]
  rw [happ]
  refine ⟨rfl, rfl, ?_, ?_⟩
  · simp [Get, getRecs, List.mem_filter, hseq]
  · intro x hx
    simp only [Get, getRecs, List.mem_filter] at hx ⊢
    exact ⟨List.mem_append_left _ hx.1, hx.2⟩

/-- Witness for C2: record Y with mismatched linkage at position 2. -/
theorem c2_linkage_mismatch_witness :
    (Append rY storeLin2).1 = AppendResult.LinkageMismatch ∧
    (Append rY storeLin2).2.mode = Mode.DAG ∧
    rY ∈ Get (Append rY storeLin2).2 2 ∧
    (∀ x ∈ Get storeLin2 2, x ∈ Get (Append rY storeLin2).2 2) :=
  c2_linkage_mismatch storeLin2 rY 2 rOne (by decide) (by decide) (by decide)
    (by decide) (by decide) (by decide) (by decide) (by decide)

theorem promote_one_step (s : ChainStore) (g : Record)
    (hpa : pendingAt s (s.frontier + 1) = [g]) (hlg : linkOk s g = true)
    (fuel : Nat) :
    promote (fuel + 1) s = promote fuel
      { s with recs := s.recs ++ [g], pending := s.pending.erase g,
               frontier := s.frontier + 1 } := by
  show (match pendingAt s (s.frontier + 1) with
    | [] => s
    | r :: _ =>
      if linkOk s r = true then
        promote fuel
          { s with recs := s.recs ++ [r], pending := s.pending.erase r,
                   frontier := s.frontier + 1 }
      else s) = _
  rw [hpa]
  exact if_pos hlg

/-- C9: a validly signed record arriving above the frontier with no stored
predecessor is buffered as a gap filler — reported as `SequenceGap`, not an
error, with the mode and fork counter untouched; and a buffered gap filler
whose gap is later completed with matching linkage is linearized without
fork handling: the mode stays LINEAR and the fork callback does not fire. -/
theorem c9_gap_buffering :
    (∀ (s : ChainStore) (r : Record), s.mode = Mode.LINEAR →
      validSig r = true → r ∉ s.recs → s.frontier + 1 < r.seq →
      Append r s =
        (AppendResult.SequenceGap, { s with pending := s.pending ++ [r] }) ∧
      (Append r s).2.mode = Mode.LINEAR ∧
      (Append r s).2.forkEvents = s.forkEvents) ∧
    (∀ (s : ChainStore) (g r : Record), s.mode = Mode.LINEAR →
      s.pending = [g] → validSig r = true → r ∉ s.recs →
      r.seq = s.frontier + 1 → linkOk s r = true →
      g.seq = s.frontier + 2 → g.prevHash = hashR r →
      (Append r s).1 = AppendResult.Ok ∧
      (Append r s).2.mode = Mode.LINEAR ∧
      (Append r s).2.forkEvents = s.forkEvents ∧
      g ∈ Get (Append r s).2 (s.frontier + 2) ∧
      (Append r s).2.frontier = s.frontier + 2) := by
  constructor
  · intro s r hmode hv hnew hgap
    have happ : Append r s =
        (AppendResult.SequenceGap, { s with pending := s.pending ++ [r] }) := by
      rw [Append, if_neg (by simp [hv]), if_neg (by omega : ¬ r.seq = 0),
          if_neg hnew, if_neg (by simp [hmode]),
          if_neg (by omega : ¬ r.seq ≤ s.frontier),
          if_neg (by omega : ¬ r.seq = s.frontier + 1)]
    rw [happ]
    exact ⟨rfl, hmode, rfl⟩
  · intro s g r hmode hpend hv hnew hseq hlink hgseq hgprev
    have happ : Append r s = (AppendResult.Ok, promote s.pending.length
        { s with recs := s.recs ++ [r], frontier := s.frontier + 1 }) := by
      rw [Append, if_neg (by simp [hv]), if_neg (by omega : ¬ r.seq = 0),
          if_neg hnew, if_neg (by simp [hmode]),
          if_neg (by omega : ¬ r.seq ≤ s.frontier), if_pos hseq, if_pos hlink]
    have hpa : pendingAt
        { s with recs := s.recs ++ [r], frontier := s.frontier + 1 }
        (s.frontier + 1 + 1) = [g] := by
      show List.filter (fun x => x.seq == s.frontier + 2) s.pending = [g]
      rw [hpend]
      simp [hgseq]
    have hlg : linkOk
        { s with recs := s.recs ++ [r], frontier := s.frontier + 1 } g
        = true := by
      rw [linkOk, if_neg (by omega : ¬ g.seq = 1)]
      rw [List.any_eq_true]
      refine ⟨r, ?_, by simp [hgprev]⟩
      rw [getRecs, List.mem_filter]
      refine ⟨List.mem_append_right _ (by simp), ?_⟩
      show (r.seq == g.seq - 1) = true
      simp [hseq, hgseq]
    have hfin : Append r s = (AppendResult.Ok,
        { s with recs := (s.recs ++ [r]) ++ [g],
                 pending := s.pending.erase g,
                 frontier := s.frontier + 2 }) := by
      have hlen : s.pending.length = 0 + 1 := by rw [hpend]; rfl
      rw [happ, hlen]
      exact congrArg (Prod.mk AppendResult.Ok) (promote_one_step _ g hpa hlg 0)
    rw [hfin]
    refine ⟨rfl, hmode, rfl, ?_, rfl⟩
    simp [Get, getRecs, List.mem_filter, hgseq]

/-- Witness for C9: record 4 of owner 5 arrives early and is buffered, then
record 3 completes the gap and both are linearized without a fork. -/
theorem c9_gap_buffering_witness :
    (Append rFour storeLin2 =
        (AppendResult.SequenceGap,
          { storeLin2 with pending := storeLin2.pending ++ [rFour] }) ∧
      (Append rFour storeLin2).2.mode = Mode.LINEAR ∧
      (Append rFour storeLin2).2.forkEvents = storeLin2.forkEvents) ∧
    ((Append rThree storeGap).1 = AppendResult.Ok ∧
      (Append rThree storeGap).2.mode = Mode.LINEAR ∧
      (Append rThree storeGap).2.forkEvents = storeGap.forkEvents ∧
      rFour ∈ Get (Append rThree storeGap).2 (storeGap.frontier + 2) ∧
      (Append rThree storeGap).2.frontier = storeGap.frontier + 2) :=
  ⟨c9_gap_buffering.1 storeLin2 rFour (by decide) (by decide) (by decide)
      (by decide),
    c9_gap_buffering.2 storeGap rFour rThree (by decide) (by decide)
      (by decide) (by decide) (by decide) (by decide) (by decide) (by decide)⟩

theorem validSig_mkRec (o q p pay : Nat) : validSig (mkRec o q p pay) = true := by
  simp [validSig, mkRec]

theorem applyAll_append (l1 l2 : List Record) (s : ChainStore) :
    applyAll (l1 ++ l2) s = applyAll l2 (applyAll l1 s) := by
  rw [applyAll, applyAll, applyAll, List.foldl_append]

theorem storeUpTo_inv (ow : Nat) (pl : Nat → Nat) :
    ∀ k, LinInv (storeUpTo ow pl k) k (prevH ow pl k) ∧
      (storeUpTo ow pl k).recs = chainList ow pl k := by
  intro k
  induction k with
  | zero => exact ⟨lin_fresh, rfl⟩
  | succ k ih =>
    obtain ⟨hinv, hrecs⟩ := ih
    obtain ⟨heq, hinv2⟩ := lin_step (storeUpTo ow pl k) k (prevH ow pl k)
      (chainRec ow pl (k + 1)) hinv (validSig_mkRec _ _ _ _) rfl rfl
    have hsucc : storeUpTo ow pl (k + 1) =
        appendTo (storeUpTo ow pl k) (chainRec ow pl (k + 1)) := by
      rw [storeUpTo, chainList, List.range'_1_concat, Nat.add_comm 1 k,
        List.map_append, applyAll, List.foldl_append]
      rfl
    constructor
    · rw [hsucc, appendTo, heq]
      have hp : prevH ow pl (k + 1) = hashR (chainRec ow pl (k + 1)) := by
        rw [prevH, if_neg (Nat.succ_ne_zero k)]
      rw [hp]
      exact hinv2
    · rw [hsucc, appendTo, heq]
      show (storeUpTo ow pl k).recs ++ [chainRec ow pl (k + 1)] =
        chainList ow pl (k + 1)
      rw [hrecs, chainList, chainList, List.range'_1_concat, Nat.add_comm 1 k,
        List.map_append]
      rfl

theorem localMissing_nopending (s : ChainStore) (hpend : s.pending = [])
    (hbound : ∀ x ∈ s.recs, x.seq ≤ s.frontier) (sum : Summary) :
    localMissing s sum =
      List.range' (s.frontier + 1) (sum.frontier - s.frontier) := by
  rw [localMissing, List.filter_eq_self]
  intro a ha
  rw [List.mem_range'_1] at ha
  have hg : getRecs s a = [] := by
    rw [getRecs, List.filter_eq_nil_iff]
    intro x hx hax
    have hxb := hbound x hx
    have hxa : x.seq = a := by simpa using hax
    omega
  have hpa : pendingAt s a = [] := by
    rw [pendingAt, hpend]
    rfl
  rw [hg, hpa]
  rfl

theorem promote_keep (fuel : Nat) :
    ∀ (s : ChainStore) (x : Record), x ∈ s.recs ++ s.pending →
      x ∈ (promote fuel s).recs ++ (promote fuel s).pending := by
  induction fuel with
  | zero => intro s x h; exact h
  | succ fuel ih =>
    intro s x h
    have hred : promote (fuel + 1) s =
        match pendingAt s (s.frontier + 1) with
        | [] => s
        | r :: _ =>
          if linkOk s r = true then
            promote fuel
              { s with recs := s.recs ++ [r], pending := s.pending.erase r,
                       frontier := s.frontier + 1 }
          else s := rfl
    rw [hred]
    cases hpa : pendingAt s (s.frontier + 1) with
    | nil => exact h
    | cons r rest =>
      dsimp only
      by_cases hl : linkOk s r = true
      · rw [if_pos hl]
        apply ih
        rcases List.mem_append.mp h with hx | hx
        · exact List.mem_append_left _ (List.mem_append_left _ hx)
        · by_cases hxr : x = r
          · subst hxr
            exact List.mem_append_left _ (List.mem_append_right _ (by simp))
          · exact List.mem_append_right _ ((List.mem_erase_of_ne hxr).mpr hx)
      · rw [if_neg hl]
        exact h

theorem append_keep (r : Record) (s : ChainStore) (x : Record)
    (h : x ∈ s.recs ++ s.pending) :
    x ∈ (Append r s).2.recs ++ (Append r s).2.pending := by
  have hrecs : x ∈ s.recs → x ∈ (s.recs ++ [r]) ++ s.pending := fun hx =>
    List.mem_append_left _ (List.mem_append_left _ hx)
  have hpend : x ∈ s.pending → x ∈ (s.recs ++ [r]) ++ s.pending := fun hx =>
    List.mem_append_right _ hx
  rw [Append]
  split_ifs with h1 h2 h3 h4 h5 h6 h7
  · exact h
  · exact h
  · exact h
  · rcases List.mem_append.mp h with hx | hx
    · exact hrecs hx
    · exact hpend hx
  · rcases List.mem_append.mp h with hx | hx
    · exact hrecs hx
    · exact hpend hx
  · apply promote_keep
    rcases List.mem_append.mp h with hx | hx
    · exact hrecs hx
    · exact hpend hx
  · rcases List.mem_append.mp h with hx | hx
    · exact hrecs hx
    · exact hpend hx
  · rcases List.mem_append.mp h with hx | hx
    · exact List.mem_append_left _ hx
    · exact List.mem_append_right _ (List.mem_append_left _ hx)

theorem append_covers (r : Record) (s : ChainStore)
    (hv : validSig r = true) (h1 : 1 ≤ r.seq) :
    ∃ x ∈ (Append r s).2.recs ++ (Append r s).2.pending, x.seq = r.seq := by
  rw [Append]
  split_ifs with h2 h3 h4 h5 h6 h7 h8
  · rw [hv] at h2
    exact absurd h2 (by simp)
  · exact absurd h3 (by omega)
  · exact ⟨r, List.mem_append_left _ h4, rfl⟩
  · exact ⟨r, List.mem_append_left _ (List.mem_append_right _ (by simp)), rfl⟩
  · exact ⟨r, List.mem_append_left _ (List.mem_append_right _ (by simp)), rfl⟩
  · exact ⟨r, promote_keep _ _ r
      (List.mem_append_left _ (List.mem_append_right _ (by simp))), rfl⟩
  · exact ⟨r, List.mem_append_left _ (List.mem_append_right _ (by simp)), rfl⟩
  · exact ⟨r, List.mem_append_right _ (List.mem_append_right _ (by simp)), rfl⟩

theorem applyAll_keep (l : List Record) :
    ∀ (s : ChainStore) (x : Record), x ∈ s.recs ++ s.pending →
      x ∈ (applyAll l s).recs ++ (applyAll l s).pending := by
  induction l with
  | nil => intro s x h; exact h
  | cons a rest ih =>
    intro s x h
    exact ih (appendTo s a) x (append_keep a s x h)

theorem applyAll_covers (l : List Record) :
    ∀ (s : ChainStore) (r : Record), r ∈ l → validSig r = true → 1 ≤ r.seq →
      ∃ x ∈ (applyAll l s).recs ++ (applyAll l s).pending, x.seq = r.seq := by
  induction l with
  | nil => intro s r hr; simp at hr
  | cons a rest ih =>
    intro s r hr hv h1
    rcases List.mem_cons.mp hr with hr | hr
    · subst hr
      obtain ⟨x, hx, hxs⟩ := append_covers r s hv h1
      exact ⟨x, applyAll_keep rest (appendTo s r) x hx, hxs⟩
    · exact ih (appendTo s a) r hr hv h1

theorem promote_frontier (fuel : Nat) :
    ∀ s : ChainStore, s.frontier ≤ (promote fuel s).frontier := by
  induction fuel with
  | zero => intro s; exact Nat.le_refl _
  | succ fuel ih =>
    intro s
    have hred : promote (fuel + 1) s =
        match pendingAt s (s.frontier + 1) with
        | [] => s
        | r :: _ =>
          if linkOk s r = true then
            promote fuel
              { s with recs := s.recs ++ [r], pending := s.pending.erase r,
                       frontier := s.frontier + 1 }
          else s := rfl
    rw [hred]
    cases hpa : pendingAt s (s.frontier + 1) with
    | nil => exact Nat.le_refl _
    | cons r rest =>
      dsimp only
      by_cases hl : linkOk s r = true
      · rw [if_pos hl]
        exact Nat.le_trans (Nat.le_succ _)
          (ih { s with recs := s.recs ++ [r], pending := s.pending.erase r,
                       frontier := s.frontier + 1 })
      · rw [if_neg hl]

theorem append_frontier (r : Record) (s : ChainStore) :
    s.frontier ≤ (Append r s).2.frontier := by
  rw [Append]
  split_ifs with h1 h2 h3 h4 h5 h6 h7
  · exact Nat.le_refl _
  · exact Nat.le_refl _
  · exact Nat.le_refl _
  · exact Nat.le_refl _
  · exact Nat.le_refl _
  · exact Nat.le_trans (Nat.le_succ _)
      (promote_frontier s.pending.length
        { s with recs := s.recs ++ [r], frontier := s.frontier + 1 })
  · exact Nat.le_refl _
  · exact Nat.le_refl _

theorem applyAll_frontier (l : List Record) :
    ∀ s : ChainStore, s.frontier ≤ (applyAll l s).frontier := by
  induction l with
  | nil => intro s; exact Nat.le_refl _
  | cons a rest ih =>
    intro s
    exact Nat.le_trans (append_frontier a s) (ih (appendTo s a))

theorem covered_not_filtered (s : ChainStore) (a : Nat)
    (h : ∃ x ∈ s.recs ++ s.pending, x.seq = a) :
    ((getRecs s a).isEmpty && (pendingAt s a).isEmpty) = false := by
  obtain ⟨x, hx, hxs⟩ := h
  rcases List.mem_append.mp hx with hx | hx
  · have hm : x ∈ getRecs s a := List.mem_filter.mpr ⟨hx, by simp [hxs]⟩
    have he : (getRecs s a).isEmpty = false := by
      cases hge : getRecs s a with
      | nil => rw [hge] at hm; simp at hm
      | cons y t => rfl
    rw [he]
    rfl
  · have hm : x ∈ pendingAt s a := List.mem_filter.mpr ⟨hx, by simp [hxs]⟩
    have he : (pendingAt s a).isEmpty = false := by
      cases hge : pendingAt s a with
      | nil => rw [hge] at hm; simp at hm
      | cons y t => rfl
    rw [he, Bool.and_false]

theorem covered_of_not_filtered (s : ChainStore) (a : Nat)
    (h : ¬ (((getRecs s a).isEmpty && (pendingAt s a).isEmpty) = true)) :
    ∃ x ∈ s.recs ++ s.pending, x.seq = a := by
  by_cases h1 : (getRecs s a).isEmpty = true
  · by_cases h2 : (pendingAt s a).isEmpty = true
    · exact absurd (by rw [h1, h2]; rfl) h
    · have hne : pendingAt s a ≠ [] := fun hh => h2 (by rw [hh]; rfl)
      obtain ⟨x, hx⟩ := List.exists_mem_of_ne_nil _ hne
      have hmf := List.mem_filter.mp hx
      exact ⟨x, List.mem_append_right _ hmf.1, by simpa using hmf.2⟩
  · have hne : getRecs s a ≠ [] := fun hh => h1 (by rw [hh]; rfl)
    obtain ⟨x, hx⟩ := List.exists_mem_of_ne_nil _ hne
    have hmf := List.mem_filter.mp hx
    exact ⟨x, List.mem_append_left _ hmf.1, by simpa using hmf.2⟩

theorem serve_covers_empty (A : ChainStore) (sumB : Summary)
    (served : List Record) (hall : ∀ r ∈ served, validSig r = true)
    (hcover : ∀ n ∈ localMissing A sumB, ∃ r ∈ served, r.seq = n) :
    localMissing (applyAll served A) sumB = [] := by
  rw [localMissing, List.filter_eq_nil_iff]
  intro a ha
  rw [List.mem_range'_1] at ha
  have hfa := applyAll_frontier served A
  intro hcond
  by_cases hmem : a ∈ localMissing A sumB
  · obtain ⟨r, hr, hrseq⟩ := hcover a hmem
    have hc := applyAll_covers served A r hr (hall r hr) (by omega)
    rw [hrseq] at hc
    rw [covered_not_filtered (applyAll served A) a hc] at hcond
    simp at hcond
  · have ha2 : a ∈ List.range' (A.frontier + 1)
        (sumB.frontier - A.frontier) := by
      rw [List.mem_range'_1]
      omega
    obtain ⟨x, hx, hxs⟩ := covered_of_not_filtered A a
      (fun hc => hmem (List.mem_filter.mpr ⟨ha2, hc⟩))
    have hk := applyAll_keep served A x hx
    rw [covered_not_filtered (applyAll served A) a ⟨x, hk, hxs⟩] at hcond
    simp at hcond

/-- C3 counterexample: for a store holding a buffered gap-filler the claimed
symmetry of `MissingRanges` fails.  The store with records 1, 2 and record
4 buffered lacks only position 3 relative to a peer at frontier 4, but the
peer's frontier-based computation of what that store lacks is positions
3..4 — the two views differ. -/
theorem c3_symmetry_counterexample :
    ¬ ((MissingRanges storeGap
          (FrontierSummary (storeUpTo 5 (fun i => i) 4))).1 =
        (MissingRanges (storeUpTo 5 (fun i => i) 4)
          (FrontierSummary storeGap)).2) := by
  decide

/-- C3 (amended): `MissingRanges` is idempotent for every chain store — if
the peer serves validly signed records covering every position the store
lacks relative to the peer's summary, then after the store appends them its
missing ranges relative to that summary are empty — and it is symmetric for
stores without buffered gap-fillers (empty pending buffer, records within
the frontier): each side's computation of the other side's missing ranges
equals that side's own computation. -/
theorem c3_missing_ranges_amended :
    (∀ A B : ChainStore, A.pending = [] → B.pending = [] →
      (∀ x ∈ A.recs, x.seq ≤ A.frontier) →
      (∀ x ∈ B.recs, x.seq ≤ B.frontier) →
      (MissingRanges A (FrontierSummary B)).1 =
        (MissingRanges B (FrontierSummary A)).2 ∧
      (MissingRanges A (FrontierSummary B)).2 =
        (MissingRanges B (FrontierSummary A)).1) ∧
    (∀ (A : ChainStore) (sumB : Summary) (served : List Record),
      (∀ r ∈ served, validSig r = true) →
      (∀ n ∈ localMissing A sumB, ∃ r ∈ served, r.seq = n) →
      localMissing (applyAll served A) sumB = [] ∧
      (MissingRanges (applyAll served A) sumB).1 = []) := by
  constructor
  · intro A B hpA hpB hbA hbB
    have h1 := localMissing_nopending A hpA hbA (FrontierSummary B)
    have h2 := localMissing_nopending B hpB hbB (FrontierSummary A)
    constructor
    · show groupRanges (localMissing _ _) = groupRanges (remoteMissing _ _)
      rw [h1]
      rfl
    · show groupRanges (remoteMissing _ _) = groupRanges (localMissing _ _)
      rw [h2]
      rfl
  · intro A sumB served hall hcover
    have he := serve_covers_empty A sumB served hall hcover
    refine ⟨he, ?_⟩
    show groupRanges (localMissing _ _) = []
    rw [he]
    rfl

/-- Witness for C3 (amended): symmetry between the gapless canonical stores
at frontiers 1 and 3, and idempotence for the store with a buffered record
4 served the missing record 3. -/
theorem c3_missing_ranges_amended_witness :
    ((MissingRanges (storeUpTo 5 (fun i => i) 1)
          (FrontierSummary (storeUpTo 5 (fun i => i) 3))).1 =
        (MissingRanges (storeUpTo 5 (fun i => i) 3)
          (FrontierSummary (storeUpTo 5 (fun i => i) 1))).2 ∧
      (MissingRanges (storeUpTo 5 (fun i => i) 1)
          (FrontierSummary (storeUpTo 5 (fun i => i) 3))).2 =
        (MissingRanges (storeUpTo 5 (fun i => i) 3)
          (FrontierSummary (storeUpTo 5 (fun i => i) 1))).1) ∧
    (localMissing (applyAll [rThree] storeGap)
        (FrontierSummary (storeUpTo 5 (fun i => i) 4)) = [] ∧
      (MissingRanges (applyAll [rThree] storeGap)
          (FrontierSummary (storeUpTo 5 (fun i => i) 4))).1 = []) :=
  ⟨c3_missing_ranges_amended.1 (storeUpTo 5 (fun i => i) 1)
      (storeUpTo 5 (fun i => i) 3) (by decide) (by decide) (by decide)
      (by decide),
    c3_missing_ranges_amended.2 storeGap
      (FrontierSummary (storeUpTo 5 (fun i => i) 4)) [rThree]
      (by decide) (by decide)⟩

theorem banInv_step (reg : Registry) (op : RegOp) (h : BanInv reg) :
    BanInv (regStep reg op) := by
  cases op with
  | gossipTimeout c p => exact h
  | summaryReject c p => exact h
  | submit c r =>
    intro c2 p2 hb
    by_cases hf : (reg.stores c r.owner).mode = Mode.LINEAR ∧
        (Append r (reg.stores c r.owner)).2.mode = Mode.DAG
    · rw [regStep, submitRecord, if_pos hf] at hb ⊢
      dsimp only at hb ⊢
      by_cases hcp : c2 = c ∧ p2 = r.owner
      · rw [if_pos hcp]
        exact hf.2
      · rw [if_neg hcp] at hb ⊢
        exact h c2 p2 hb
    · rw [regStep, submitRecord, if_neg hf] at hb ⊢
      dsimp only at hb ⊢
      by_cases hcp : c2 = c ∧ p2 = r.owner
      · rw [if_pos hcp]
        have hd := h c2 p2 hb
        rw [hcp.1, hcp.2] at hd
        exact append_dag r _ hd
      · rw [if_neg hcp]
        exact h c2 p2 hb

theorem banInv_fold (ops : List RegOp) :
    ∀ reg, BanInv reg → BanInv (ops.foldl regStep reg) := by
  induction ops with
  | nil => intro reg h; exact h
  | cons op rest ih => intro reg h; exact ih _ (banInv_step reg op h)

/-- C7: in every reachable registry state a peer is banned for a community
only if the fork detector has demoted that peer's own chain store in that
community to DAG; a gossip round that times out or a peer that rejects the
summary format causes no state change; and a submission in one community
never changes ban state in another community. -/
theorem c7_ban_invariant :
    (∀ ops c p, (runOps ops).banned c p = true →
      ((runOps ops).stores c p).mode = Mode.DAG) ∧
    (∀ reg c p, regStep reg (RegOp.gossipTimeout c p) = reg) ∧
    (∀ reg c p, regStep reg (RegOp.summaryReject c p) = reg) ∧
    (∀ reg c r c2 q, c2 ≠ c →
      (regStep reg (RegOp.submit c r)).banned c2 q = reg.banned c2 q) := by
  refine ⟨?_, fun reg c p => rfl, fun reg c p => rfl, ?_⟩
  · intro ops c p hb
    refine banInv_fold ops initRegistry ?_ c p hb
    intro c2 p2 h2
    simp [initRegistry] at h2
  · intro reg c r c2 q hne
    rw [regStep, submitRecord]
    by_cases hf : (reg.stores c r.owner).mode = Mode.LINEAR ∧
        (Append r (reg.stores c r.owner)).2.mode = Mode.DAG
    · rw [if_pos hf]
      dsimp only
      rw [if_neg (fun hx => hne hx.1)]
    · rw [if_neg hf]

/-- Witness for C7: submitting the concrete forked chain of owner 5 in
community 3 bans owner 5 there with the store demoted to DAG; a timeout is
a no-op; a submission in community 3 leaves community 4's bans unchanged. -/
theorem c7_ban_invariant_witness :
    ((runOps [RegOp.submit 3 rOne, RegOp.submit 3 rX,
        RegOp.submit 3 rY]).stores 3 5).mode = Mode.DAG ∧
    regStep (runOps [RegOp.submit 3 rOne]) (RegOp.gossipTimeout 3 9) =
      runOps [RegOp.submit 3 rOne] ∧
    (regStep initRegistry (RegOp.submit 3 rOne)).banned 4 5 =
      initRegistry.banned 4 5 :=
  ⟨c7_ban_invariant.1 [RegOp.submit 3 rOne, RegOp.submit 3 rX,
      RegOp.submit 3 rY] 3 5 (by decide),
    c7_ban_invariant.2.1 (runOps [RegOp.submit 3 rOne]) 3 9,
    c7_ban_invariant.2.2.2 initRegistry 3 rOne 4 5 (by decide)⟩

/-- C6: a record received from a remote peer during gossip reconciliation
is fed through the originating owner's chain store `Append` and meets
exactly the outcome of a local append — same result code, same updated
store — and neither the outcome nor the updated store depends on the ban
state (a banned peer's record delivered by a third party validates the
same as any other record). -/
theorem c6_gossip_same_validation (stf : Nat → Nat → ChainStore)
    (b b2 : Nat → Nat → Bool) (c snd : Nat) (r : Record) :
    gossipReceiveBatch ⟨stf, b⟩ c snd [r] = (submitRecord ⟨stf, b⟩ c r).2 ∧
    (submitRecord ⟨stf, b⟩ c r).1 = (Append r (stf c r.owner)).1 ∧
    ((submitRecord ⟨stf, b⟩ c r).2).stores c r.owner =
      (Append r (stf c r.owner)).2 ∧
    (submitRecord ⟨stf, b⟩ c r).1 = (submitRecord ⟨stf, b2⟩ c r).1 ∧
    ((submitRecord ⟨stf, b⟩ c r).2).stores c r.owner =
      ((submitRecord ⟨stf, b2⟩ c r).2).stores c r.owner := by
  refine ⟨rfl, ?_, ?_, ?_, ?_⟩
  · rw [submitRecord]
    split_ifs <;> rfl
  · rw [submitRecord]
    split_ifs <;> (dsimp only; rw [if_pos ⟨rfl, rfl⟩])
  · rw [submitRecord, submitRecord]
    dsimp only
    split_ifs <;> rfl
  · rw [submitRecord, submitRecord]
    dsimp only
    split_ifs <;> dsimp only

theorem reachNB_end (topo : List (Nat × Nat)) (bannedP : Nat → Bool)
    (p q : Nat) (h : ReachNB topo bannedP p q) : bannedP q = false := by
  induction h with
  | refl hb => exact hb
  | step _ _ _ _ hb2 _ => exact hb2

theorem netState_mono_succ (b : Nat → Bool) (s : Nat → Nat × Nat)
    (i : Nat → List Record) (r : Record) (p t : Nat)
    (h : r ∈ netState b s i t p) : r ∈ netState b s i (t + 1) p := by
  simp only [netState]
  split_ifs with h1 h2
  · exact h
  · rcases h2 with h2 | h2
    · exact List.mem_append_left _ (h2 ▸ h)
    · exact List.mem_append_right _ (h2 ▸ h)
  · exact h

theorem netState_mono (b : Nat → Bool) (s : Nat → Nat × Nat)
    (i : Nat → List Record) (r : Record) (p : Nat) (t t2 : Nat)
    (hle : t ≤ t2) (h : r ∈ netState b s i t p) :
    r ∈ netState b s i t2 p := by
  induction t2, hle using Nat.le_induction with
  | base => exact h
  | succ t3 hle2 ih => exact netState_mono_succ b s i r p t3 ih

theorem netState_push (b : Nat → Bool) (s : Nat → Nat × Nat)
    (i : Nat → List Record) (r : Record) (t p q : Nat)
    (hst : s t = (p, q)) (hbp : b p = false) (hbq : b q = false)
    (h : r ∈ netState b s i t p) : r ∈ netState b s i (t + 1) q := by
  simp only [netState, hst]
  split_ifs with h1 h2
  · simp_all
  · exact List.mem_append_left _ h
  · simp_all

/-- C5: under a topology whose edges are all retried over successive gossip
rounds (fairness) and a path of non-banned peers connecting `p` to `q`,
every record held by peer `p` initially is eventually present at peer `q`
— eventual consistency with no latency bound. -/
theorem c5_eventual_delivery (topo : List (Nat × Nat))
    (bannedP : Nat → Bool) (sched : Nat → Nat × Nat)
    (init : Nat → List Record) (r : Record) (p q : Nat)
    (hfair : FairSched topo sched) (hpath : ReachNB topo bannedP p q)
    (hr : r ∈ init p) :
    ∃ t, r ∈ netState bannedP sched init t q := by
  induction hpath with
  | refl hb => exact ⟨0, hr⟩
  | step q2 q3 hre hedge hb3 ih =>
    obtain ⟨t, ht⟩ := ih
    obtain ⟨t2, hle, hst⟩ := hfair (q2, q3) hedge t
    have hbq2 : bannedP q2 = false := reachNB_end topo bannedP p q2 hre
    have hm := netState_mono bannedP sched init r q2 t t2 hle ht
    exact ⟨t2 + 1,
      netState_push bannedP sched init r t2 q2 q3 hst hbq2 hb3 hm⟩

/-- Witness for C5 on the two-peer topology with a single repeated edge. -/
theorem c5_eventual_delivery_witness :
    ∃ t, rOne ∈ netState (fun _ => false) (fun _ => (0, 1))
      (fun p => if p = 0 then [rOne] else []) t 1 :=
  c5_eventual_delivery [(0, 1)] (fun _ => false) (fun _ => (0, 1))
    (fun p => if p = 0 then [rOne] else []) rOne 0 1
    (fun e he t => ⟨t, Nat.le_refl t, (List.mem_singleton.mp he).symm⟩)
    (ReachNB.step 0 1 (ReachNB.refl rfl) (List.mem_singleton.mpr rfl) rfl)
    (by decide)

theorem shInv_step (s s2 : ShState) (hs : ShInv s) (hstep : ShStep s s2) :
    ShInv s2 := by
  obtain ⟨h1, h11, hl, hrun, hpr⟩ := hs
  cases hstep with
  | launch hle =>
    refine ⟨?_, ?_, ?_, ?_, ?_⟩
    · show 1 ≤ s.nextInput + 1
      omega
    · show s.nextInput + 1 ≤ 11
      omega
    · show s.launched ++ [s.nextInput] = List.range' 1 (s.nextInput + 1 - 1)
      rw [hl]
      have h2 : s.nextInput + 1 - 1 = (s.nextInput - 1) + 1 := by omega
      rw [h2, List.range'_1_concat]
      have h3 : 1 + (s.nextInput - 1) = s.nextInput := by omega
      rw [h3]
    · show ∀ i ∈ s.running ++ [s.nextInput], i ∈ s.launched ++ [s.nextInput]
      intro i hi
      rcases List.mem_append.mp hi with hi | hi
      · exact List.mem_append_left _ (hrun i hi)
      · exact List.mem_append_right _ hi
    · intro hp
      exact absurd (hpr hp).1 (by omega)
  | finish i hi =>
    refine ⟨h1, h11, hl, ?_, ?_⟩
    · show ∀ j ∈ s.running.erase i, j ∈ s.launched
      intro j hj
      exact hrun j (List.mem_of_mem_erase hj)
    · intro hp
      obtain ⟨ha, hb⟩ := hpr hp
      refine ⟨ha, ?_⟩
      show s.running.erase i = []
      rw [hb]
      rfl
  | printDone hn hrm =>
    exact ⟨h1, h11, hl, hrun, fun _ => ⟨hn, hrm⟩⟩

theorem shInv_reach (s : ShState) (h : ShReach s) : ShInv s := by
  induction h with
  | refl =>
    refine ⟨by decide, by decide, rfl, ?_, ?_⟩
    · intro i hi
      simp [shInit] at hi
    · intro hp
      simp [shInit] at hp
  | tail hab hbc ih => exact shInv_step _ _ ih hbc

/-- C10: every complete execution of `multi_sim.sh` launches exactly ten
background runs of `basic_simulation.py`, one for each integer input 1
through 10, and prints "All processes finished." only in states where
every launched background process has terminated. -/
theorem c10_multi_sim (s : ShState) (hr : ShReach s)
    (hp : s.printed = true) :
    s.launched = List.range' 1 10 ∧ s.launched.length = 10 ∧
    s.running = [] := by
  obtain ⟨h1, h11, hl, hrun, hpr⟩ := shInv_reach s hr
  obtain ⟨hn, hempty⟩ := hpr hp
  rw [hl, hn]
  exact ⟨rfl, by simp, hempty⟩

/-- Witness for C10: an explicit complete run of the script reaching the
printed state. -/
theorem c10_multi_sim_witness :
    shFinal.launched = List.range' 1 10 ∧ shFinal.launched.length = 10 ∧
    shFinal.running = [] := by
  refine c10_multi_sim shFinal ?_ rfl
  have t0 : ShReach shInit := Relation.ReflTransGen.refl
  have t1 : ShReach ⟨2, [1], [1], false⟩ :=
    t0.tail (ShStep.launch shInit (by decide))
  have t2 : ShReach ⟨3, [1, 2], [1, 2], false⟩ :=
    t1.tail (ShStep.launch _ (by decide))
  have t3 : ShReach ⟨4, [1, 2, 3], [1, 2, 3], false⟩ :=
    t2.tail (ShStep.launch _ (by decide))
  have t4 : ShReach ⟨5, [1, 2, 3, 4], [1, 2, 3, 4], false⟩ :=
    t3.tail (ShStep.launch _ (by decide))
  have t5 : ShReach ⟨6, [1, 2, 3, 4, 5], [1, 2, 3, 4, 5], false⟩ :=
    t4.tail (ShStep.launch _ (by decide))
  have t6 : ShReach ⟨7, [1, 2, 3, 4, 5, 6], [1, 2, 3, 4, 5, 6], false⟩ :=
    t5.tail (ShStep.launch _ (by decide))
  have t7 : ShReach ⟨8, [1, 2, 3, 4, 5, 6, 7], [1, 2, 3, 4, 5, 6, 7], false⟩ :=
    t6.tail (ShStep.launch _ (by decide))
  have t8 : ShReach ⟨9, [1, 2, 3, 4, 5, 6, 7, 8],
      [1, 2, 3, 4, 5, 6, 7, 8], false⟩ :=
    t7.tail (ShStep.launch _ (by decide))
  have t9 : ShReach ⟨10, [1, 2, 3, 4, 5, 6, 7, 8, 9],
      [1, 2, 3, 4, 5, 6, 7, 8, 9], false⟩ :=
    t8.tail (ShStep.launch _ (by decide))
  have t10 : ShReach ⟨11, [1, 2, 3, 4, 5, 6, 7, 8, 9, 10],
      [1, 2, 3, 4, 5, 6, 7, 8, 9, 10], false⟩ :=
    t9.tail (ShStep.launch _ (by decide))
  have u1 : ShReach ⟨11, [1, 2, 3, 4, 5, 6, 7, 8, 9, 10],
      [2, 3, 4, 5, 6, 7, 8, 9, 10], false⟩ :=
    t10.tail (ShStep.finish _ 1 (by decide))
  have u2 : ShReach ⟨11, [1, 2, 3, 4, 5, 6, 7, 8, 9, 10],
      [3, 4, 5, 6, 7, 8, 9, 10], false⟩ :=
    u1.tail (ShStep.finish _ 2 (by decide))
  have u3 : ShReach ⟨11, [1, 2, 3, 4, 5, 6, 7, 8, 9, 10],
      [4, 5, 6, 7, 8, 9, 10], false⟩ :=
    u2.tail (ShStep.finish _ 3 (by decide))
  have u4 : ShReach ⟨11, [1, 2, 3, 4, 5, 6, 7, 8, 9, 10],
      [5, 6, 7, 8, 9, 10], false⟩ :=
    u3.tail (ShStep.finish _ 4 (by decide))
  have u5 : ShReach ⟨11, [1, 2, 3, 4, 5, 6, 7, 8, 9, 10],
      [6, 7, 8, 9, 10], false⟩ :=
    u4.tail (ShStep.finish _ 5 (by decide))
  have u6 : ShReach ⟨11, [1, 2, 3, 4, 5, 6, 7, 8, 9, 10],
      [7, 8, 9, 10], false⟩ :=
    u5.tail (ShStep.finish _ 6 (by decide))
  have u7 : ShReach ⟨11, [1, 2, 3, 4, 5, 6, 7, 8, 9, 10],
      [8, 9, 10], false⟩ :=
    u6.tail (ShStep.finish _ 7 (by decide))
  have u8 : ShReach ⟨11, [1, 2, 3, 4, 5, 6, 7, 8, 9, 10],
      [9, 10], false⟩ :=
    u7.tail (ShStep.finish _ 8 (by decide))
  have u9 : ShReach ⟨11, [1, 2, 3, 4, 5, 6, 7, 8, 9, 10], [10], false⟩ :=
    u8.tail (ShStep.finish _ 9 (by decide))
  have u10 : ShReach ⟨11, [1, 2, 3, 4, 5, 6, 7, 8, 9, 10], [], false⟩ :=
    u9.tail (ShStep.finish _ 10 (by decide))
  exact u10.tail (ShStep.printDone _ rfl rfl)

end Bami
